import Mathlib

/-!
Shallow embedding of the fazpi-qbull consumer/publisher library.

The main object is `QueueWorker` (src/lib/core/QueueWorker.js), modelled as a
labelled transition system over an explicit state record.  JavaScript runs the
body of `_doPoll` after the awaited `xreadgroup`, the body of a `.finally`
completion callback, and the body of `stop()`'s flag assignment each as an
uninterrupted synchronous block, so each such block is one atomic step here.
JS numbers that hold the job counter are modelled as `Int`; records that travel
on the wire are association lists in insertion order (the iteration order of a
JS object / `Map`).
-/

namespace QBull

/-- A message delivered by the store: the store-assigned id together with the
decoded `_orderingKey` field (absent when the payload has no such field). -/
structure Job where
  jid : Nat
  key : Option String
deriving DecidableEq, Repr

/-- Worker configuration after construction: `options.concurrency` (already
coerced to at least 1 by the constructor) and `options.processOrderedByKey`. -/
structure Cfg where
  concurrency : Nat
  ordered : Bool
deriving DecidableEq, Repr

/-- JS truthiness of `jobData._orderingKey` (line 171): the keyed path is taken
only when the field is present and a non-empty string. -/
def truthyKey (j : Job) : Option String :=
  match j.key with
  | some s => if s = "" then none else some s
  | none => none

/-- `this.orderingKeyQueues`: a JS `Map` in insertion order. -/
abbrev KQueues := List (String × List Job)

/-- `map.get(k)` on the queue map; `[]` when the key is absent. -/
def lookupQ (k : String) (qs : KQueues) : List Job :=
  match qs.find? (fun e => e.1 = k) with
  | some e => e.2
  | none => []

/-- `map.set(k, q)` for a key already present: replace that entry's value. -/
def setQ (k : String) (q : List Job) (qs : KQueues) : KQueues :=
  qs.map (fun e => if e.1 = k then (k, q) else e)

/-- `map.delete(k)`. -/
def removeQ (k : String) (qs : KQueues) : KQueues :=
  qs.filter (fun e => ¬ e.1 = k)

/-- Lines 173-176: create the key's FIFO on first use (a fresh key goes to the
end of the `Map`'s iteration order), then `push` the job at the tail. -/
def enqueueJob (k : String) (j : Job) (qs : KQueues) : KQueues :=
  if qs.any (fun e => e.1 = k) then
    qs.map (fun e => if e.1 = k then (e.1, e.2 ++ [j]) else e)
  else
    qs ++ [(k, [j])]

/-- Observable events of the worker:
`read` = an `xreadgroup` call is issued; `enq` = a keyed message is appended to
its key's internal FIFO; `start` = a handler is spawned (`_executeJob` called);
`done` = a handler's `.finally` completion runs. -/
inductive Ev where
  | read : Ev
  | enq : String → Nat → Ev
  | start : Job → Ev
  | done : Job → Ev
deriving DecidableEq, Repr

/-- The mutable fields of a `QueueWorker` that the poll/dispatch/completion
logic touches, plus the multiset `running` of jobs whose handler is in flight
(implicit in JS as the set of pending `_executeJob` promises) and
`pollInFlight`, the `COUNT` of an `xreadgroup` call that has been issued and
not yet returned. -/
structure WState where
  isStopping : Bool
  activeJobs : Int
  queues : KQueues
  processingKeys : List String
  running : List Job
  pollInFlight : Option Nat
deriving DecidableEq, Repr

/-- Initial state produced by the constructor (lines 66-74). -/
def initState : WState :=
  { isStopping := false
    activeJobs := 0
    queues := []
    processingKeys := []
    running := []
    pollInFlight := none }

/-- Lines 133,145: messages requested from the store in one poll. -/
def fetchCount (c : Cfg) (s : WState) : Nat :=
  if c.ordered then c.concurrency else max 1 ((c.concurrency : Int) - s.activeJobs).toNat

/-- Lines 226-231: the state change of one keyed dispatch — mark the key busy,
`shift` the FIFO's head `j`, delete the key when its FIFO empties, bump
`activeJobs`, spawn the handler. -/
def dispatchStep (k : String) (j : Job) (qt : List Job) (s : WState) : WState :=
  { s with
    queues := if qt = [] then removeQ k s.queues else setQ k qt s.queues
    processingKeys := k :: s.processingKeys
    activeJobs := s.activeJobs + 1
    running := j :: s.running }

/-- The `for` loop of `_dispatchOrderedJobs` (lines 223-245), iterating over a
snapshot of the `Map` entries.  For each key with a non-empty FIFO that is not
busy, while a concurrency slot is free, perform `dispatchStep`; after every
iteration, break once `activeJobs` reaches the bound (line 244). -/
def dispatchLoop (conc : Nat) : KQueues → WState → WState × List Ev
  | [], s => (s, [])
  | (_, []) :: rest, s =>
      if (conc : Int) ≤ s.activeJobs then (s, []) else dispatchLoop conc rest s
  | (k, j :: qt) :: rest, s =>
      if k ∉ s.processingKeys ∧ s.activeJobs < (conc : Int) then
        if (conc : Int) ≤ s.activeJobs + 1 then (dispatchStep k j qt s, [Ev.start j])
        else
          ((dispatchLoop conc rest (dispatchStep k j qt s)).1,
            Ev.start j :: (dispatchLoop conc rest (dispatchStep k j qt s)).2)
      else
        if (conc : Int) ≤ s.activeJobs then (s, []) else dispatchLoop conc rest s

/-- `_dispatchOrderedJobs` (lines 218-246): a no-op unless ordered mode is on
and the worker is not stopping. -/
def dispatchOrdered (c : Cfg) (s : WState) : WState × List Ev :=
  if c.ordered = true ∧ s.isStopping = false then dispatchLoop c.concurrency s.queues s
  else (s, [])

/-- Lines 173-176: append an arriving keyed message to its key's FIFO. -/
def enqState (k : String) (j : Job) (s : WState) : WState :=
  { s with queues := enqueueJob k j s.queues }

/-- Lines 180-182: start an unordered job immediately (slot available). -/
def startState (j : Job) (s : WState) : WState :=
  { s with activeJobs := s.activeJobs + 1, running := j :: s.running }

/-- The classification `for` loop of `_doPoll` (lines 166-197): keyed messages
(ordered mode, truthy key) are appended to their key's FIFO; other messages are
started immediately when a slot is free, and the rest of the batch is dropped
(`break`, line 194) when the pool is full. -/
def classify (c : Cfg) : List Job → WState → WState × List Ev
  | [], s => (s, [])
  | j :: rest, s =>
      match (if c.ordered then truthyKey j else none) with
      | some k =>
          ((classify c rest (enqState k j s)).1,
            Ev.enq k j.jid :: (classify c rest (enqState k j s)).2)
      | none =>
          if s.activeJobs < (c.concurrency : Int) then
            ((classify c rest (startState j s)).1,
              Ev.start j :: (classify c rest (startState j s)).2)
          else (s, [])

/-- The batch-processing tail of `_doPoll` (lines 162-201): classify every
received message in arrival order, then, in ordered mode, dispatch from the
per-key FIFOs. -/
def processBatch (c : Cfg) (batch : List Job) (s : WState) : WState × List Ev :=
  if c.ordered then
    ((dispatchOrdered c (classify c batch s).1).1,
      (classify c batch s).2 ++ (dispatchOrdered c (classify c batch s).1).2)
  else classify c batch s

/-- Lines 184 and 238: the state change common to every handler completion. -/
def completeState (j : Job) (s : WState) : WState :=
  { s with activeJobs := s.activeJobs - 1, running := s.running.erase j }

/-- The `.finally` continuation of a spawned handler (lines 183-189 for the
unordered path, 237-241 for the keyed path): decrement `activeJobs`, release
the key when the job was keyed, and re-run the ordered dispatcher. -/
def afterComplete (c : Cfg) (j : Job) (s : WState) : WState × List Ev :=
  if c.ordered then
    match truthyKey j with
    | some k =>
        dispatchOrdered c
          { completeState j s with
            processingKeys := (completeState j s).processingKeys.erase k }
    | none => dispatchOrdered c (completeState j s)
  else (completeState j s, [])

/-- One atomic step of the worker.
`poll` issues `xreadgroup` (lines 123-155): only when not stopping, no read is
already blocked, and — in unordered mode — a slot is free (line 134).
`pollRetStop` is the post-block discard (lines 157-160).
`pollRet` processes a returned batch of at most `COUNT` messages.
`complete` is the completion of an in-flight handler.
`stop` is `stop()` setting `isStopping` (line 284); `start()` never clears the
flag afterwards because it returns early when `isStopping` is set (line 83). -/
inductive Step (c : Cfg) : WState → List Ev → WState → Prop
  | poll {s : WState}
      (hs : s.isStopping = false) (hp : s.pollInFlight = none)
      (hc : c.ordered = false → s.activeJobs < (c.concurrency : Int)) :
      Step c s [Ev.read] { s with pollInFlight := some (fetchCount c s) }
  | pollRetStop {s : WState} {n : Nat}
      (hp : s.pollInFlight = some n) (hs : s.isStopping = true) :
      Step c s [] { s with pollInFlight := none }
  | pollRet {s : WState} {n : Nat} (batch : List Job)
      (hp : s.pollInFlight = some n) (hs : s.isStopping = false)
      (hlen : batch.length ≤ n) :
      Step c s (processBatch c batch { s with pollInFlight := none }).2
               (processBatch c batch { s with pollInFlight := none }).1
  | complete {s : WState} (j : Job) (hj : j ∈ s.running) :
      Step c s (Ev.done j :: (afterComplete c j s).2) (afterComplete c j s).1
  | stop {s : WState} :
      Step c s [] { s with isStopping := true }

/-- Reachable states of one worker together with the trace of events so far. -/
inductive Reach (c : Cfg) : WState → List Ev → Prop
  | init : Reach c initState []
  | step {s : WState} {tr evs : List Ev} {s' : WState} :
      Reach c s tr → Step c s evs s' → Reach c s' (tr ++ evs)

/-- Ids of the `enq` events for key `k`, in trace order: the arrival order of
the keyed messages the store delivered for `k`. -/
def enqSeq (k : String) (tr : List Ev) : List Nat :=
  tr.filterMap (fun e =>
    match e with
    | Ev.enq k' i => if k' = k then some i else none
    | _ => none)

/-- Ids of the handler starts for messages carrying key `k`, in trace order. -/
def startSeq (k : String) (tr : List Ev) : List Nat :=
  tr.filterMap (fun e =>
    match e with
    | Ev.start j => if truthyKey j = some k then some j.jid else none
    | _ => none)

/-- Number of in-flight handlers processing a message with (truthy) key `k`. -/
def inflightFor (k : String) (s : WState) : Nat :=
  (s.running.filter (fun j => truthyKey j = some k)).length

/-! ### The inductive invariant of the worker -/

/-- Invariant tying a reachable worker state to its trace:
* `act_run`: `activeJobs` counts exactly the in-flight handlers;
* `act_le`: the concurrency bound (claim C3);
* `keysNodup`: the ordering-key `Map` has no duplicate keys;
* `queuesKeyed`: every job queued under key `k` carries truthy key `k`;
* `pkNodup`: the busy-key `Set` has no duplicates;
* `oneInFlight`: a key has an in-flight handler iff it is busy, and then
  exactly one (claim C2);
* `fifo`: per key, arrivals = starts followed by the pending FIFO (claim C1).
-/
structure Inv (c : Cfg) (s : WState) (tr : List Ev) : Prop where
  act_run : s.activeJobs = (s.running.length : Int)
  act_le : s.activeJobs ≤ (c.concurrency : Int)
  keysNodup : (s.queues.map Prod.fst).Nodup
  queuesKeyed : ∀ k q, (k, q) ∈ s.queues → ∀ j ∈ q, truthyKey j = some k
  pkNodup : c.ordered = true → s.processingKeys.Nodup
  oneInFlight : c.ordered = true →
    ∀ k, inflightFor k s = if k ∈ s.processingKeys then 1 else 0
  fifo : c.ordered = true →
    ∀ k, enqSeq k tr = startSeq k tr ++ (lookupQ k s.queues).map Job.jid

/-- The snapshot of `Map` entries the dispatch loop iterates over agrees with
the live queue map. -/
def EntriesOk (entries : KQueues) (s : WState) : Prop :=
  (entries.map Prod.fst).Nodup ∧ ∀ k q, (k, q) ∈ entries → lookupQ k s.queues = q

/-! ### A concrete execution used to witness the worker claims -/

/-- Demo configuration: concurrency 2, ordered mode. -/
def cDemo : Cfg := ⟨2, true⟩

def jA1 : Job := ⟨1, some "A"⟩

def jA2 : Job := ⟨2, some "A"⟩

/-- Trace of: one poll, a batch of two messages with key "A", the first
handler dispatched, its completion, the second handler dispatched. -/
def demoTrace : List Ev :=
  [Ev.read, Ev.enq "A" 1, Ev.enq "A" 2, Ev.start jA1, Ev.done jA1, Ev.start jA2]

def demoEnd : WState :=
  { isStopping := false
    activeJobs := 1
    queues := []
    processingKeys := ["A"]
    running := [jA2]
    pollInFlight := none }

def demoStopState : WState := { initState with isStopping := true }

/-! ### `_executeJob` (QueueWorker.js lines 254-277) -/

/-- The value a handler fulfils with, as far as line 261 is concerned:
`undefined` skips the `JSON.stringify(result)` call altogether; a defined
value is either serializable or makes `JSON.stringify` throw (circular
structure, BigInt, …). -/
inductive JsResult where
  | undef
  | serializable
  | nonSerializable
deriving DecidableEq, Repr

/-- A rejection reason, as far as the catch blocks are concerned: on `null`
or `undefined` any property access (`.message` at lines 267 and 272) throws a
TypeError; on every other value the access succeeds (its `message` may simply
be `undefined`). -/
inductive JsReason where
  | nullish
  | nonNullish
deriving DecidableEq, Repr

/-- The settled outcome of awaiting the user handler (line 260). -/
inductive HandlerOutcome where
  | fulfilled (result : JsResult)
  | rejected (reason : JsReason)
deriving DecidableEq, Repr

/-- The settled outcome of the `xack` call (line 264), observed only when the
ack is attempted. -/
inductive AckOutcome where
  | fulfilled
  | rejected (reason : JsReason)
deriving DecidableEq, Repr

/-- `JSON.stringify(result)` at line 261 throws. -/
def stringifyThrows : JsResult → Bool
  | JsResult.nonSerializable => true
  | JsResult.undef => false
  | JsResult.serializable => false

/-- A property access such as `reason.message` (lines 267, 272) throws. -/
def accessThrows : JsReason → Bool
  | JsReason.nullish => true
  | JsReason.nonNullish => false

/-- Observable calls made by `_executeJob`, in order: the handler invocation,
the completed success log of line 261, the `xack` attempt, and the two error
logs of lines 267 and 272. -/
inductive ExecCall where
  | handlerInvoke
  | logResult
  | ackAttempt
  | logAckError
  | logHandlerError
deriving DecidableEq, Repr

/-- What the `async` function `_executeJob` itself settles to. -/
inductive ExecResult where
  | resolved
  | rejectedTypeError
deriving DecidableEq, Repr

/-- `_executeJob` (lines 254-277) with its real error paths.
Control flow of the source: `try { await handler (260);
log(…JSON.stringify(result)…) (261); try { await xack (264); log (265) }
catch (ackError) { log(ackError.message) (267) } } catch (error)
{ log(error.message) (272) }`.
* Line 261 stringifies a defined result BEFORE the inner try: a
  non-serializable result throws there, control reaches the outer catch (the
  thrown TypeError has a `message`, so line 272 succeeds), and the ack is
  never attempted.
* A catch parameter that is `null`/`undefined` makes the `.message` access
  throw: at line 272 this TypeError escapes, so `_executeJob`'s promise
  rejects; at line 267 it propagates from the inner catch into the outer
  catch, whose own accesses (on the TypeError) succeed. -/
def executeJob (handler : HandlerOutcome) (ack : AckOutcome) :
    List ExecCall × ExecResult :=
  match handler with
  | HandlerOutcome.rejected reason =>
      if accessThrows reason then
        ([ExecCall.handlerInvoke], ExecResult.rejectedTypeError)
      else
        ([ExecCall.handlerInvoke, ExecCall.logHandlerError], ExecResult.resolved)
  | HandlerOutcome.fulfilled result =>
      if stringifyThrows result then
        ([ExecCall.handlerInvoke, ExecCall.logHandlerError], ExecResult.resolved)
      else
        match ack with
        | AckOutcome.fulfilled =>
            ([ExecCall.handlerInvoke, ExecCall.logResult, ExecCall.ackAttempt],
              ExecResult.resolved)
        | AckOutcome.rejected areason =>
            if accessThrows areason then
              ([ExecCall.handlerInvoke, ExecCall.logResult, ExecCall.ackAttempt,
                ExecCall.logHandlerError], ExecResult.resolved)
            else
              ([ExecCall.handlerInvoke, ExecCall.logResult, ExecCall.ackAttempt,
                ExecCall.logAckError], ExecResult.resolved)

/-! ### The `QueueWorker` constructor (lines 30-77) -/

/-- JS `String.prototype.trim`: strip leading and trailing whitespace
(structurally recursive so that concrete instances evaluate). -/
def jsTrim (s : String) : String :=
  ⟨((s.data.dropWhile Char.isWhitespace).reverse.dropWhile
      Char.isWhitespace).reverse⟩

/-- A JavaScript value supplied as `options.concurrency`: a number (modelled
as an integer) or any non-number value. -/
inductive JSValue where
  | num (v : Int)
  | nonNum
deriving DecidableEq, Repr

/-- Constructor inputs: whether the client exposes `xgroup`/`xreadgroup`/
`xack`, the queue name, whether the handler is a function, and the
`options.concurrency` entry (`none` = option absent, default 1 applies). -/
structure CtorArgs where
  clientOk : Bool
  queueName : String
  handlerOk : Bool
  concurrencyOpt : Option JSValue

/-- What the constructor does: one of the three validation throws (lines
32-43), the TypeError raised at line 60 because `this.logger` is only
assigned at line 65, or successful construction. -/
inductive CtorOutcome where
  | invalidClient
  | invalidQueueName
  | invalidHandler
  | typeErrorLoggerUndefined
  | ok (concurrency : Int) (warned : Bool)
deriving DecidableEq, Repr

/-- Line 59: `typeof c === 'number' && !(c < 1)` — the value passes the
concurrency validation. -/
def concurrencyValid : JSValue → Bool
  | JSValue.num v => decide (1 ≤ v)
  | JSValue.nonNum => false

/-- The constructor (lines 30-77) in statement order.  Crucially, the
concurrency validation at lines 59-62 runs BEFORE `this.logger` is assigned
at line 65, so its `this.logger.warn(...)` call throws a TypeError whenever
the branch is taken. -/
def construct (a : CtorArgs) : CtorOutcome :=
  if a.clientOk = false then CtorOutcome.invalidClient
  else if jsTrim a.queueName = "" then CtorOutcome.invalidQueueName
  else if a.handlerOk = false then CtorOutcome.invalidHandler
  else
    match a.concurrencyOpt.getD (JSValue.num 1) with
    | JSValue.num v =>
        if decide (1 ≤ v) = false then CtorOutcome.typeErrorLoggerUndefined
        else CtorOutcome.ok v false
    | JSValue.nonNum => CtorOutcome.typeErrorLoggerUndefined

/-! ### `RedisSingleton._ensureConnected` (RedisSingleton.js lines 169-186) -/

/-- Events observable from `_ensureConnected` and a delegating operation. -/
inductive ConnEv where
  | awaitedExisting
  | initiatedConnect
  | forwardedOp
deriving DecidableEq, Repr

/-- `_ensureConnected`: when not connected, await the in-flight
`_connectionPromise` if there is one (line 175), otherwise call `connect()`
(line 178); afterwards throw if still not connected (lines 182-185).
`attempt` is the environment's outcome of the awaited attempt:
`Except.error e` when it rejects, `Except.ok b` when it resolves with `b` the
resulting `isConnected` flag. -/
def ensureConnected (isConnected : Bool) (promiseInFlight : Bool)
    (attempt : Except String Bool) : List ConnEv × Except String Unit :=
  if isConnected then ([], Except.ok ())
  else
    match (if promiseInFlight then ConnEv.awaitedExisting
        else ConnEv.initiatedConnect), attempt with
    | ev, Except.error e => ([ev], Except.error e)
    | ev, Except.ok after =>
        if after then ([ev], Except.ok ())
        else ([ev],
          Except.error "Redis connection could not be established by Singleton.")

/-- A delegating SharedStore operation (`set`/`get`/`publishToStream`,
lines 188-201): `await this._ensureConnected()` then forward to the client. -/
def delegatedOp (isConnected promiseInFlight : Bool)
    (attempt : Except String Bool) : List ConnEv × Except String Unit :=
  match ensureConnected isConnected promiseInFlight attempt with
  | (evs, Except.ok _) => (evs ++ [ConnEv.forwardedOp], Except.ok ())
  | (evs, Except.error e) => (evs, Except.error e)

/-- The operation's promise rejected. -/
def opFailed : Except String Unit → Bool
  | Except.ok _ => false
  | Except.error _ => true

/-! ### `QueueWorker.start` (lines 82-107) -/

inductive StartEv where
  | createGroupCall
  | doPollInvoked
deriving DecidableEq, Repr

def charsPrefixOf : List Char → List Char → Bool
  | [], _ => true
  | _ :: _, [] => false
  | a :: as, b :: bs => a = b && charsPrefixOf as bs

def charsInfixOf (pat : List Char) : List Char → Bool
  | [] => charsPrefixOf pat []
  | b :: bs => charsPrefixOf pat (b :: bs) || charsInfixOf pat bs

/-- JS `haystack.includes(pattern)`: contiguous substring test. -/
def strIncludes (hay pat : String) : Bool :=
  charsInfixOf pat.data hay.data

/-- Line 98: `err.message && err.message.includes('BUSYGROUP')`; an error may
carry no message (`none`). -/
def isBusyGroup : Option String → Bool
  | some m => strIncludes m "BUSYGROUP"
  | none => false

/-- `start()` (lines 82-107): the early return when stopping, the
`xgroup CREATE` attempt whose BUSYGROUP failure is absorbed, the rethrow of
any other failure, and the `_doPoll()` call that begins polling. -/
def startFn (isStopping : Bool)
    (createGroupResult : Except (Option String) Unit) :
    List StartEv × Except (Option String) Unit :=
  if isStopping then ([], Except.ok ())
  else
    match createGroupResult with
    | Except.ok _ =>
        ([StartEv.createGroupCall, StartEv.doPollInvoked], Except.ok ())
    | Except.error msg =>
        if isBusyGroup msg then
          ([StartEv.createGroupCall, StartEv.doPollInvoked], Except.ok ())
        else
          ([StartEv.createGroupCall], Except.error msg)

/-! ### `Publisher.publish` (Publisher.js lines 23-48)

To state the frame property "the caller's payload object is not mutated", JS
objects live in a small heap of references; `publish` is modelled up to the
point where the built `jobPayload` is handed to `publishToStream` (the store
call itself is external). -/

/-- A JS object with string fields, in insertion order. -/
abbrev JRecord := List (String × String)

/-- JS field assignment `obj[k] = v`: overwrite in place when the field
exists, otherwise append in insertion order. -/
def setField (r : JRecord) (k v : String) : JRecord :=
  if r.any (fun e => e.1 = k) then
    r.map (fun e => if e.1 = k then (k, v) else e)
  else r ++ [(k, v)]

/-- A heap of objects addressed by references. -/
structure Heap where
  objs : List (Nat × JRecord)
deriving Repr

def Heap.get (h : Heap) (r : Nat) : Option JRecord :=
  match h.objs.find? (fun e => e.1 = r) with
  | some e => some e.2
  | none => none

/-- Overwrite the record stored at reference `r`. -/
def Heap.put (h : Heap) (r : Nat) (rec : JRecord) : Heap :=
  ⟨h.objs.map (fun e => if e.1 = r then (r, rec) else e)⟩

/-- A reference not yet used by the heap. -/
def Heap.fresh (h : Heap) : Nat :=
  (h.objs.map Prod.fst).foldr (fun a b => max a b) 0 + 1

/-- Allocate a new object (`{ ...messageData }` builds one). -/
def Heap.alloc (h : Heap) (rec : JRecord) : Heap × Nat :=
  (⟨h.objs ++ [(h.fresh, rec)]⟩, h.fresh)

/-- Association lookup underlying `Heap.get`. -/
def hfind (r : Nat) (l : List (Nat × JRecord)) : Option JRecord :=
  match l.find? (fun e => e.1 = r) with
  | some e => some e.2
  | none => none

/-- `Publisher.publish` up to the store call: validate the stream name (lines
24-27) and the payload (lines 28-31), build the defensive copy
`jobPayload = { ...messageData }` (line 33), and set `_orderingKey` on the
copy only when `options.orderingKey` is a string that is truthy and non-empty
after trimming (lines 36-39).  Returns the heap and the reference handed to
`publishToStream`. -/
def publish (h : Heap) (streamName : String) (messageData : Nat)
    (orderingKey : Option String) : Except String (Heap × Nat) :=
  if jsTrim streamName = "" then
    Except.error "The stream name must be a non-empty string."
  else
    match h.get messageData with
    | none => Except.error "The message data must be an object."
    | some rec =>
        match orderingKey with
        | some kk =>
            if ¬ (kk = "") ∧ ¬ (jsTrim kk = "") then
              Except.ok ((h.alloc rec).1.put (h.alloc rec).2
                (setField rec "_orderingKey" (jsTrim kk)), (h.alloc rec).2)
            else Except.ok ((h.alloc rec).1, (h.alloc rec).2)
        | none => Except.ok ((h.alloc rec).1, (h.alloc rec).2)

/-- The payload that ends up at the reference handed to the store. -/
def sentPayload (rec : JRecord) (orderingKey : Option String) : JRecord :=
  match orderingKey with
  | some kk =>
      if ¬ (kk = "") ∧ ¬ (jsTrim kk = "") then
        setField rec "_orderingKey" (jsTrim kk)
      else rec
  | none => rec

/-! ### The wire encoding round trip (RedisClient.js line 142,
QueueWorker.js lines 9-15) -/

/-- `Object.entries(payload).flat()`: insertion-order interleaved keys and
values of a flat record of string fields. -/
def flattenEntries : List (String × String) → List String
  | [] => []
  | (k, v) :: rest => k :: v :: flattenEntries rest

/-- A decoded JS object: `arr[i+1]` is `undefined` (`none`) when the flat
array has odd length. -/
abbrev JRecordO := List (String × Option String)

def setFieldO (r : JRecordO) (k : String) (v : Option String) : JRecordO :=
  if r.any (fun e => e.1 = k) then
    r.map (fun e => if e.1 = k then (k, v) else e)
  else r ++ [(k, v)]

/-- The loop of `arrayToObject` (lines 11-13): `obj[arr[i]] = arr[i+1]` for
`i = 0, 2, 4, …`, starting from the empty object. -/
def arrayToObjectLoop : List String → JRecordO → JRecordO
  | [], obj => obj
  | [k], obj => setFieldO obj k none
  | k :: v :: rest, obj => arrayToObjectLoop rest (setFieldO obj k (some v))

/-- `arrayToObject` (lines 9-15). -/
def arrayToObject (arr : List String) : JRecordO := arrayToObjectLoop arr []

/-! ### Theorems -/

/-! ### Basic lemmas about traces and the queue map -/

theorem enqSeq_append (k : String) (tr evs : List Ev) :
    enqSeq k (tr ++ evs) = enqSeq k tr ++ enqSeq k evs := by
  simp [enqSeq, List.filterMap_append]

theorem startSeq_append (k : String) (tr evs : List Ev) :
    startSeq k (tr ++ evs) = startSeq k tr ++ startSeq k evs := by
  simp [startSeq, List.filterMap_append]

theorem enqSeq_cons_read (k : String) (evs : List Ev) :
    enqSeq k (Ev.read :: evs) = enqSeq k evs := rfl

theorem enqSeq_cons_start (k : String) (j : Job) (evs : List Ev) :
    enqSeq k (Ev.start j :: evs) = enqSeq k evs := rfl

theorem enqSeq_cons_done (k : String) (j : Job) (evs : List Ev) :
    enqSeq k (Ev.done j :: evs) = enqSeq k evs := rfl

theorem enqSeq_cons_enq (k k' : String) (i : Nat) (evs : List Ev) :
    enqSeq k (Ev.enq k' i :: evs) =
      (if k' = k then [i] else []) ++ enqSeq k evs := by
  by_cases h : k' = k <;> simp [enqSeq, h]

theorem startSeq_cons_read (k : String) (evs : List Ev) :
    startSeq k (Ev.read :: evs) = startSeq k evs := rfl

theorem startSeq_cons_enq (k k' : String) (i : Nat) (evs : List Ev) :
    startSeq k (Ev.enq k' i :: evs) = startSeq k evs := rfl

theorem startSeq_cons_done (k : String) (j : Job) (evs : List Ev) :
    startSeq k (Ev.done j :: evs) = startSeq k evs := rfl

theorem startSeq_cons_start (k : String) (j : Job) (evs : List Ev) :
    startSeq k (Ev.start j :: evs) =
      (if truthyKey j = some k then [j.jid] else []) ++ startSeq k evs := by
  by_cases h : truthyKey j = some k <;> simp [startSeq, h]

theorem lookupQ_nil (k : String) : lookupQ k [] = [] := rfl

theorem lookupQ_cons (k : String) (e : String × List Job) (qs : KQueues) :
    lookupQ k (e :: qs) = if e.1 = k then e.2 else lookupQ k qs := by
  by_cases h : e.1 = k <;> simp [lookupQ, List.find?_cons, h]

theorem setQ_cons (k : String) (q : List Job) (e : String × List Job) (qs : KQueues) :
    setQ k q (e :: qs) = (if e.1 = k then (k, q) else e) :: setQ k q qs := by
  by_cases h : e.1 = k <;> simp [setQ, h]

theorem removeQ_cons (k : String) (e : String × List Job) (qs : KQueues) :
    removeQ k (e :: qs) = if e.1 = k then removeQ k qs else e :: removeQ k qs := by
  by_cases h : e.1 = k <;> simp [removeQ, List.filter_cons, h]

theorem lookupQ_eq_of_mem {k : String} {q : List Job} {qs : KQueues}
    (hnd : (qs.map Prod.fst).Nodup) (h : (k, q) ∈ qs) : lookupQ k qs = q := by
  induction qs with
  | nil => cases h
  | cons e rest ih =>
      rcases List.mem_cons.mp h with h | h
      · subst h; simp [lookupQ_cons]
      · have hk : e.1 ≠ k := by
          intro hek
          have hmem : k ∈ rest.map Prod.fst := by
            have := List.mem_map_of_mem Prod.fst h
            simpa using this
          rw [List.map_cons, List.nodup_cons, hek] at hnd
          exact hnd.1 hmem
        rw [lookupQ_cons, if_neg hk]
        exact ih ((List.map_cons Prod.fst e rest ▸ hnd).of_cons) h

theorem mem_of_lookupQ {k : String} {q : List Job} {qs : KQueues}
    (hne : q ≠ []) (h : lookupQ k qs = q) : (k, q) ∈ qs := by
  unfold lookupQ at h
  cases hf : qs.find? (fun e => e.1 = k) with
  | none => rw [hf] at h; exact absurd h.symm hne
  | some e =>
      rw [hf] at h
      have hmem := List.mem_of_find?_eq_some hf
      have hkey := List.find?_some hf
      simp only [decide_eq_true_eq] at hkey
      have he : e = (k, q) := by
        cases e; simp_all
      rwa [he] at hmem

theorem keys_setQ (k : String) (q : List Job) (qs : KQueues) :
    (setQ k q qs).map Prod.fst = qs.map Prod.fst := by
  induction qs with
  | nil => rfl
  | cons e rest ih =>
      rw [setQ_cons]
      by_cases h : e.1 = k <;> simp [h, ih]

theorem lookupQ_setQ_self {k : String} {qs : KQueues} (q : List Job)
    (h : k ∈ qs.map Prod.fst) : lookupQ k (setQ k q qs) = q := by
  induction qs with
  | nil => simp at h
  | cons e rest ih =>
      rw [setQ_cons]
      by_cases he : e.1 = k
      · simp [he, lookupQ_cons]
      · rw [if_neg he, lookupQ_cons, if_neg he]
        apply ih
        rcases List.mem_map.mp h with ⟨x, hx, hfx⟩
        rcases List.mem_cons.mp hx with hx | hx
        · exact absurd (hx ▸ hfx) he
        · exact hfx ▸ List.mem_map_of_mem Prod.fst hx

theorem lookupQ_setQ_ne {k k' : String} (hne : k' ≠ k) (q : List Job) (qs : KQueues) :
    lookupQ k' (setQ k q qs) = lookupQ k' qs := by
  induction qs with
  | nil => rfl
  | cons e rest ih =>
      rw [setQ_cons]
      by_cases he : e.1 = k
      · rw [if_pos he]
        have h1 : ¬ (k = k') := fun hc => hne hc.symm
        simp [lookupQ_cons, he, h1, ih]
      · rw [if_neg he, lookupQ_cons, lookupQ_cons]
        by_cases he' : e.1 = k' <;> simp [he', ih]

theorem keys_removeQ_sublist (k : String) (qs : KQueues) :
    ((removeQ k qs).map Prod.fst).Sublist (qs.map Prod.fst) :=
  (List.filter_sublist qs).map Prod.fst

theorem lookupQ_removeQ_self (k : String) (qs : KQueues) :
    lookupQ k (removeQ k qs) = [] := by
  induction qs with
  | nil => rfl
  | cons e rest ih =>
      rw [removeQ_cons]
      by_cases h : e.1 = k
      · simpa [h] using ih
      · rw [if_neg h, lookupQ_cons, if_neg h]
        exact ih

theorem lookupQ_removeQ_ne {k k' : String} (hne : k' ≠ k) (qs : KQueues) :
    lookupQ k' (removeQ k qs) = lookupQ k' qs := by
  induction qs with
  | nil => rfl
  | cons e rest ih =>
      rw [removeQ_cons]
      by_cases h : e.1 = k
      · have hne' : e.1 ≠ k' := fun hc => hne (hc.symm.trans h)
        rw [if_pos h, lookupQ_cons, if_neg hne']
        exact ih
      · rw [if_neg h, lookupQ_cons, lookupQ_cons]
        by_cases h' : e.1 = k' <;> simp [h', ih]

theorem mem_setQ {e' : String × List Job} {k : String} {q : List Job} {qs : KQueues}
    (h : e' ∈ setQ k q qs) : e' = (k, q) ∨ e' ∈ qs := by
  rcases List.mem_map.mp h with ⟨e, he, hfe⟩
  by_cases hk : e.1 = k
  · left; rw [← hfe]; simp [hk]
  · right; rw [← hfe]; simpa [hk] using he

theorem mem_removeQ {e' : String × List Job} {k : String} {qs : KQueues}
    (h : e' ∈ removeQ k qs) : e' ∈ qs :=
  List.mem_of_mem_filter h

theorem keys_enqueueJob_pos {k : String} {qs : KQueues} (j : Job)
    (h : qs.any (fun e => e.1 = k) = true) :
    (enqueueJob k j qs).map Prod.fst = qs.map Prod.fst := by
  rw [enqueueJob, if_pos h, List.map_map]
  apply List.map_congr_left
  intro e _
  by_cases he : e.1 = k <;> simp [he]

theorem keys_enqueueJob_neg {k : String} {qs : KQueues} (j : Job)
    (h : ¬ qs.any (fun e => e.1 = k) = true) :
    (enqueueJob k j qs).map Prod.fst = qs.map Prod.fst ++ [k] := by
  rw [enqueueJob, if_neg h]
  simp

theorem not_mem_keys_of_not_any {k : String} {qs : KQueues}
    (h : ¬ qs.any (fun e => e.1 = k) = true) : k ∉ qs.map Prod.fst := by
  intro hk
  rcases List.mem_map.mp hk with ⟨e, he, hfe⟩
  exact h (List.any_eq_true.mpr ⟨e, he, by simp [hfe]⟩)

theorem lookupQ_eq_nil_of_not_any {k : String} {qs : KQueues}
    (h : ¬ qs.any (fun e => e.1 = k) = true) : lookupQ k qs = [] := by
  unfold lookupQ
  cases hf : qs.find? (fun e => e.1 = k) with
  | none => rfl
  | some e =>
      have hkey := List.find?_some hf
      have hmem := List.mem_of_find?_eq_some hf
      exact absurd (List.any_eq_true.mpr ⟨e, hmem, hkey⟩) h

theorem lookupQ_enqueueJob_self (k : String) (j : Job) (qs : KQueues) :
    lookupQ k (enqueueJob k j qs) = lookupQ k qs ++ [j] := by
  by_cases h : qs.any (fun e => e.1 = k) = true
  · rw [enqueueJob, if_pos h]
    induction qs with
    | nil => simp at h
    | cons e rest ih =>
        by_cases he : e.1 = k
        · simp [lookupQ_cons, he]
        · rw [List.map_cons, if_neg he, lookupQ_cons, if_neg he, lookupQ_cons, if_neg he]
          have h' : rest.any (fun e => e.1 = k) = true := by
            rw [List.any_cons] at h
            simpa [he] using h
          exact ih h'
  · rw [enqueueJob, if_neg h, lookupQ_eq_nil_of_not_any h]
    unfold lookupQ
    rw [List.find?_append]
    have : qs.find? (fun e => e.1 = k) = none := by
      cases hf : qs.find? (fun e => e.1 = k) with
      | none => rfl
      | some e =>
          exact absurd (List.any_eq_true.mpr
            ⟨e, List.mem_of_find?_eq_some hf, List.find?_some hf⟩) h
    simp [this, List.find?]

theorem lookupQ_mapupd_ne {k k' : String} (hne : k' ≠ k) (j : Job) (qs : KQueues) :
    lookupQ k' (qs.map (fun e => if e.1 = k then (e.1, e.2 ++ [j]) else e)) =
      lookupQ k' qs := by
  induction qs with
  | nil => rfl
  | cons e rest ih =>
      by_cases hek : e.1 = k
      · have hne' : ¬ (e.1 = k') := fun hc => hne (hc.symm.trans hek)
        have hkk' : ¬ (k = k') := fun hc => hne hc.symm
        simp [lookupQ_cons, hek, hne', hkk', ih]
      · by_cases hek' : e.1 = k' <;> simp [lookupQ_cons, hek, hek', hne, ih]

theorem lookupQ_enqueueJob_ne {k k' : String} (hne : k' ≠ k) (j : Job) (qs : KQueues) :
    lookupQ k' (enqueueJob k j qs) = lookupQ k' qs := by
  rw [enqueueJob]
  by_cases h : qs.any (fun e => e.1 = k) = true
  · rw [if_pos h]
    exact lookupQ_mapupd_ne hne j qs
  · rw [if_neg h]
    unfold lookupQ
    rw [List.find?_append]
    have hq : ([(k, [j])].find? (fun e => e.1 = k')) = none := by
      simp [List.find?, hne.symm]
    cases hf : qs.find? (fun e => e.1 = k') <;> simp [hf, hq]

theorem queuesKeyed_enqueueJob {k : String} {j : Job} {qs : KQueues}
    (hq : ∀ k0 q0, (k0, q0) ∈ qs → ∀ x ∈ q0, truthyKey x = some k0)
    (hj : truthyKey j = some k) :
    ∀ k0 q0, (k0, q0) ∈ enqueueJob k j qs → ∀ x ∈ q0, truthyKey x = some k0 := by
  intro k0 q0 hmem x hx
  rw [enqueueJob] at hmem
  by_cases h : qs.any (fun e => e.1 = k) = true
  · rw [if_pos h] at hmem
    rcases List.mem_map.mp hmem with ⟨e, he, hfe⟩
    by_cases hek : e.1 = k
    · rw [if_pos hek] at hfe
      obtain ⟨a, b⟩ := e
      injection hfe with h1 h2
      subst h1; subst h2
      rcases List.mem_append.mp hx with hx' | hx'
      · exact hq a b he x hx'
      · have hxj : x = j := by simpa using hx'
        subst hxj
        rw [hj, hek]
    · rw [if_neg hek] at hfe
      exact hq k0 q0 (hfe ▸ he) x hx
  · rw [if_neg h] at hmem
    rcases List.mem_append.mp hmem with hm | hm
    · exact hq k0 q0 hm x hx
    · have hm' : k0 = k ∧ q0 = [j] := by simpa using hm
      rcases hm' with ⟨hk0, hq0⟩
      have hxj : x = j := by simpa [hq0] using hx
      rw [hxj, hj, hk0]

theorem length_filter_erase {α : Type} [DecidableEq α] (p : α → Bool) {a : α}
    {l : List α} (h : a ∈ l) :
    ((l.erase a).filter p).length + (if p a then 1 else 0) = (l.filter p).length := by
  have hperm : l.Perm (a :: l.erase a) := List.perm_cons_erase h
  have := (hperm.filter p).length_eq
  rw [this, List.filter_cons]
  by_cases hp : p a <;> simp [hp]

theorem entriesOk_self {s : WState} (h : (s.queues.map Prod.fst).Nodup) :
    EntriesOk s.queues s :=
  ⟨h, fun _ _ hm => lookupQ_eq_of_mem h hm⟩

theorem entriesOk_tail {e : String × List Job} {rest : KQueues} {s : WState}
    (h : EntriesOk (e :: rest) s) : EntriesOk rest s :=
  ⟨(List.map_cons Prod.fst e rest ▸ h.1).of_cons,
    fun k q hm => h.2 k q (List.mem_cons_of_mem e hm)⟩

theorem entriesOk_tail_dispatchStep {k : String} {j : Job} {qt : List Job}
    {rest : KQueues} {s : WState}
    (h : EntriesOk ((k, j :: qt) :: rest) s) :
    EntriesOk rest (dispatchStep k j qt s) := by
  have hnd := h.1
  rw [List.map_cons] at hnd
  have hknotin : k ∉ rest.map Prod.fst := (List.nodup_cons.mp hnd).1
  refine ⟨(List.nodup_cons.mp hnd).2, fun k' q' hm => ?_⟩
  have hk' : k' ≠ k := by
    intro hc
    exact hknotin (hc ▸ List.mem_map_of_mem Prod.fst hm)
  have : lookupQ k' (dispatchStep k j qt s).queues = lookupQ k' s.queues := by
    simp only [dispatchStep]
    by_cases hqt : qt = [] <;>
      simp [hqt, lookupQ_removeQ_ne hk', lookupQ_setQ_ne hk']
  rw [this]
  exact h.2 k' q' (List.mem_cons_of_mem _ hm)

theorem dispatchStep_inv {c : Cfg} {k : String} {j : Job} {qt : List Job}
    {s : WState} {tr : List Ev}
    (hInv : Inv c s tr)
    (hlk : lookupQ k s.queues = j :: qt)
    (hg1 : k ∉ s.processingKeys) (hg2 : s.activeJobs < (c.concurrency : Int)) :
    Inv c (dispatchStep k j qt s) (tr ++ [Ev.start j]) := by
  have hmem : (k, j :: qt) ∈ s.queues := mem_of_lookupQ (by simp) hlk
  have hkj : truthyKey j = some k :=
    hInv.queuesKeyed k (j :: qt) hmem j (List.mem_cons_self j qt)
  have hkmem : k ∈ s.queues.map Prod.fst := by
    simpa using List.mem_map_of_mem Prod.fst hmem
  constructor
  · show s.activeJobs + 1 = ((j :: s.running).length : Int)
    rw [List.length_cons]
    have := hInv.act_run
    push_cast
    omega
  · show s.activeJobs + 1 ≤ (c.concurrency : Int)
    omega
  · show ((if qt = [] then removeQ k s.queues else setQ k qt s.queues).map
      Prod.fst).Nodup
    by_cases hqt : qt = []
    · rw [if_pos hqt]
      exact (keys_removeQ_sublist k s.queues).nodup hInv.keysNodup
    · rw [if_neg hqt, keys_setQ]
      exact hInv.keysNodup
  · show ∀ k0 q0,
      (k0, q0) ∈ (if qt = [] then removeQ k s.queues else setQ k qt s.queues) →
        ∀ x ∈ q0, truthyKey x = some k0
    intro k0 q0 hm x hx
    by_cases hqt : qt = []
    · rw [if_pos hqt] at hm
      exact hInv.queuesKeyed k0 q0 (mem_removeQ hm) x hx
    · rw [if_neg hqt] at hm
      rcases mem_setQ hm with hm | hm
      · injection hm with h1 h2
        rw [h1]
        rw [h2] at hx
        exact hInv.queuesKeyed k (j :: qt) hmem x (List.mem_cons_of_mem j hx)
      · exact hInv.queuesKeyed k0 q0 hm x hx
  · intro hord
    exact List.nodup_cons.mpr ⟨hg1, hInv.pkNodup hord⟩
  · intro hord k0
    have h0 := hInv.oneInFlight hord k0
    simp only [inflightFor] at h0
    show ((j :: s.running).filter (fun x => truthyKey x = some k0)).length =
      if k0 ∈ k :: s.processingKeys then 1 else 0
    by_cases hk0 : k0 = k
    · have hpj : truthyKey j = some k0 := by rw [hkj, hk0]
      have hfc : (j :: s.running).filter (fun x => truthyKey x = some k0) =
          j :: s.running.filter (fun x => truthyKey x = some k0) := by
        simp [List.filter_cons, hpj]
      have hnotin : k0 ∉ s.processingKeys := by rw [hk0]; exact hg1
      rw [if_neg hnotin] at h0
      have hmm : k0 ∈ k :: s.processingKeys := by
        rw [hk0]; exact List.mem_cons_self k s.processingKeys
      rw [hfc, if_pos hmm, List.length_cons, h0]
    · have hpj : ¬ (truthyKey j = some k0) := by
        rw [hkj]; exact fun hc => hk0 (Option.some.inj hc).symm
      have hfc : (j :: s.running).filter (fun x => truthyKey x = some k0) =
          s.running.filter (fun x => truthyKey x = some k0) := by
        simp [List.filter_cons, hpj]
      rw [hfc]
      by_cases hin : k0 ∈ s.processingKeys
      · rw [if_pos (List.mem_cons_of_mem k hin)]
        rw [if_pos hin] at h0
        exact h0
      · have hnotin : k0 ∉ k :: s.processingKeys := by
          intro hc
          rcases List.mem_cons.mp hc with hc | hc
          exacts [hk0 hc, hin hc]
        rw [if_neg hnotin]
        rw [if_neg hin] at h0
        exact h0
  · intro hord k0
    have hf := hInv.fifo hord k0
    rw [enqSeq_append, startSeq_append]
    have he1 : enqSeq k0 [Ev.start j] = [] := rfl
    have hs1 : startSeq k0 [Ev.start j] =
        if truthyKey j = some k0 then [j.jid] else [] := by
      by_cases h : truthyKey j = some k0 <;> simp [startSeq, h]
    rw [he1, List.append_nil, hs1]
    by_cases hk0 : k0 = k
    · have hpj : truthyKey j = some k0 := by rw [hkj, hk0]
      have hlk0 : lookupQ k0 s.queues = j :: qt := by rw [hk0]; exact hlk
      have hlk' : lookupQ k0 (dispatchStep k j qt s).queues = qt := by
        show lookupQ k0 (if qt = [] then removeQ k s.queues else setQ k qt s.queues) = qt
        by_cases hqt : qt = []
        · rw [if_pos hqt, hk0, lookupQ_removeQ_self, hqt]
        · rw [if_neg hqt, hk0]
          exact lookupQ_setQ_self qt hkmem
      rw [hlk', if_pos hpj, hf, hlk0]
      simp
    · have hpj : ¬ (truthyKey j = some k0) := by
        rw [hkj]; exact fun hc => hk0 (Option.some.inj hc).symm
      have hlk' : lookupQ k0 (dispatchStep k j qt s).queues = lookupQ k0 s.queues := by
        show lookupQ k0 (if qt = [] then removeQ k s.queues else setQ k qt s.queues) =
          lookupQ k0 s.queues
        by_cases hqt : qt = [] <;>
          simp [hqt, lookupQ_removeQ_ne hk0, lookupQ_setQ_ne hk0]
      rw [hlk', if_neg hpj, List.append_nil]
      exact hf

theorem dispatchLoop_inv {c : Cfg} {entries : KQueues} {s : WState} {tr : List Ev}
    (hInv : Inv c s tr) (hE : EntriesOk entries s) :
    Inv c (dispatchLoop c.concurrency entries s).1
      (tr ++ (dispatchLoop c.concurrency entries s).2) := by
  induction entries generalizing s tr with
  | nil => simpa [dispatchLoop] using hInv
  | cons e rest ih =>
      obtain ⟨k, q⟩ := e
      cases q with
      | nil =>
          by_cases hc : (c.concurrency : Int) ≤ s.activeJobs
          · simp only [dispatchLoop, if_pos hc]
            simpa using hInv
          · simp only [dispatchLoop, if_neg hc]
            exact ih hInv (entriesOk_tail hE)
      | cons j qt =>
          by_cases hg : k ∉ s.processingKeys ∧ s.activeJobs < (c.concurrency : Int)
          · have hlk : lookupQ k s.queues = j :: qt :=
              hE.2 k (j :: qt) (List.mem_cons_self _ _)
            have hInv' := dispatchStep_inv hInv hlk hg.1 hg.2
            have hE' := entriesOk_tail_dispatchStep hE
            by_cases hstop : (c.concurrency : Int) ≤ s.activeJobs + 1
            · simp only [dispatchLoop, if_pos hg, if_pos hstop]
              exact hInv'
            · simp only [dispatchLoop, if_pos hg, if_neg hstop]
              rw [List.append_cons]
              exact ih hInv' hE'
          · by_cases hc : (c.concurrency : Int) ≤ s.activeJobs
            · simp only [dispatchLoop, if_neg hg, if_pos hc]
              simpa using hInv
            · simp only [dispatchLoop, if_neg hg, if_neg hc]
              exact ih hInv (entriesOk_tail hE)

theorem dispatchOrdered_inv {c : Cfg} {s : WState} {tr : List Ev}
    (hInv : Inv c s tr) :
    Inv c (dispatchOrdered c s).1 (tr ++ (dispatchOrdered c s).2) := by
  rw [dispatchOrdered]
  by_cases h : c.ordered = true ∧ s.isStopping = false
  · rw [if_pos h]
    exact dispatchLoop_inv hInv (entriesOk_self hInv.keysNodup)
  · rw [if_neg h]
    simpa using hInv

theorem enqState_inv {c : Cfg} {k : String} {j : Job} {s : WState} {tr : List Ev}
    (hInv : Inv c s tr) (hkj : truthyKey j = some k) :
    Inv c (enqState k j s) (tr ++ [Ev.enq k j.jid]) := by
  constructor
  · exact hInv.act_run
  · exact hInv.act_le
  · show ((enqueueJob k j s.queues).map Prod.fst).Nodup
    by_cases h : s.queues.any (fun e => e.1 = k) = true
    · rw [keys_enqueueJob_pos j h]
      exact hInv.keysNodup
    · rw [keys_enqueueJob_neg j h]
      refine List.nodup_append.mpr ⟨hInv.keysNodup, List.nodup_singleton k, ?_⟩
      intro a ha hb
      have : a = k := by simpa using hb
      exact not_mem_keys_of_not_any h (this ▸ ha)
  · exact queuesKeyed_enqueueJob hInv.queuesKeyed hkj
  · exact hInv.pkNodup
  · exact hInv.oneInFlight
  · intro hord k0
    have hf := hInv.fifo hord k0
    rw [enqSeq_append, startSeq_append]
    have hs1 : startSeq k0 [Ev.enq k j.jid] = [] := rfl
    have he1 : enqSeq k0 [Ev.enq k j.jid] = if k = k0 then [j.jid] else [] := by
      by_cases h : k = k0 <;> simp [enqSeq, h]
    rw [hs1, List.append_nil, he1]
    by_cases hk0 : k = k0
    · rw [if_pos hk0]
      show enqSeq k0 tr ++ [j.jid] = startSeq k0 tr ++
        (lookupQ k0 (enqueueJob k j s.queues)).map Job.jid
      rw [← hk0, lookupQ_enqueueJob_self, List.map_append]
      rw [← hk0] at hf
      rw [hf]
      simp
    · rw [if_neg hk0, List.append_nil]
      show enqSeq k0 tr = startSeq k0 tr ++
        (lookupQ k0 (enqueueJob k j s.queues)).map Job.jid
      rw [lookupQ_enqueueJob_ne (fun hc => hk0 hc.symm) j s.queues]
      exact hf

theorem startState_inv {c : Cfg} {j : Job} {s : WState} {tr : List Ev}
    (hInv : Inv c s tr)
    (hkj : c.ordered = true → truthyKey j = none)
    (hg : s.activeJobs < (c.concurrency : Int)) :
    Inv c (startState j s) (tr ++ [Ev.start j]) := by
  constructor
  · show s.activeJobs + 1 = ((j :: s.running).length : Int)
    rw [List.length_cons]
    have := hInv.act_run
    push_cast
    omega
  · show s.activeJobs + 1 ≤ (c.concurrency : Int)
    omega
  · exact hInv.keysNodup
  · exact hInv.queuesKeyed
  · exact hInv.pkNodup
  · intro hord k0
    have h0 := hInv.oneInFlight hord k0
    have hpj : ¬ (truthyKey j = some k0) := by rw [hkj hord]; simp
    show ((j :: s.running).filter (fun x => truthyKey x = some k0)).length =
      if k0 ∈ s.processingKeys then 1 else 0
    have hfc : (j :: s.running).filter (fun x => truthyKey x = some k0) =
        s.running.filter (fun x => truthyKey x = some k0) := by
      simp [List.filter_cons, hpj]
    rw [hfc]
    exact h0
  · intro hord k0
    have hf := hInv.fifo hord k0
    have hpj : ¬ (truthyKey j = some k0) := by rw [hkj hord]; simp
    rw [enqSeq_append, startSeq_append]
    have he1 : enqSeq k0 [Ev.start j] = [] := rfl
    have hs1 : startSeq k0 [Ev.start j] = [] := by simp [startSeq, hpj]
    rw [he1, hs1, List.append_nil, List.append_nil]
    exact hf

theorem classify_cons_enq {c : Cfg} {j : Job} {k : String} (rest : List Job)
    (s : WState) (h : (if c.ordered then truthyKey j else none) = some k) :
    classify c (j :: rest) s =
      ((classify c rest (enqState k j s)).1,
        Ev.enq k j.jid :: (classify c rest (enqState k j s)).2) := by
  simp only [classify, h]

theorem classify_cons_start {c : Cfg} {j : Job} (rest : List Job) (s : WState)
    (h : (if c.ordered then truthyKey j else none) = none)
    (hg : s.activeJobs < (c.concurrency : Int)) :
    classify c (j :: rest) s =
      ((classify c rest (startState j s)).1,
        Ev.start j :: (classify c rest (startState j s)).2) := by
  simp only [classify, h, if_pos hg]

theorem classify_cons_full {c : Cfg} {j : Job} (rest : List Job) (s : WState)
    (h : (if c.ordered then truthyKey j else none) = none)
    (hg : ¬ s.activeJobs < (c.concurrency : Int)) :
    classify c (j :: rest) s = (s, []) := by
  simp only [classify, h, if_neg hg]

theorem classify_inv {c : Cfg} (batch : List Job) {s : WState} {tr : List Ev}
    (hInv : Inv c s tr) :
    Inv c (classify c batch s).1 (tr ++ (classify c batch s).2) := by
  induction batch generalizing s tr with
  | nil => simpa [classify] using hInv
  | cons j rest ih =>
      cases hkc : (if c.ordered then truthyKey j else none) with
      | some k =>
          have hkj : truthyKey j = some k := by
            by_cases hco : c.ordered = true
            · rwa [hco, if_pos rfl] at hkc
            · rw [Bool.not_eq_true] at hco
              rw [hco] at hkc
              simp at hkc
          rw [classify_cons_enq rest s hkc]
          have hInv' := enqState_inv hInv hkj
          have hrec := ih hInv'
          rw [List.append_cons]
          exact hrec
      | none =>
          by_cases hg : s.activeJobs < (c.concurrency : Int)
          · rw [classify_cons_start rest s hkc hg]
            have hkj : c.ordered = true → truthyKey j = none := by
              intro hord
              rwa [hord, if_pos rfl] at hkc
            have hInv' := startState_inv hInv hkj hg
            have hrec := ih hInv'
            rw [List.append_cons]
            exact hrec
          · rw [classify_cons_full rest s hkc hg]
            simpa using hInv

theorem processBatch_inv {c : Cfg} (batch : List Job) {s : WState} {tr : List Ev}
    (hInv : Inv c s tr) :
    Inv c (processBatch c batch s).1 (tr ++ (processBatch c batch s).2) := by
  rw [processBatch]
  by_cases hco : c.ordered = true
  · rw [if_pos hco]
    have h1 := classify_inv batch hInv
    have h2 := dispatchOrdered_inv h1
    simpa [List.append_assoc] using h2
  · rw [if_neg hco]
    exact classify_inv batch hInv

theorem completeState_inv_unkeyed {c : Cfg} {j : Job} {s : WState} {tr : List Ev}
    (hInv : Inv c s tr) (hj : j ∈ s.running)
    (hk : c.ordered = true → truthyKey j = none) :
    Inv c (completeState j s) (tr ++ [Ev.done j]) := by
  have hlen : 0 < s.running.length := List.length_pos_of_mem hj
  constructor
  · show s.activeJobs - 1 = (((s.running.erase j).length : Nat) : Int)
    rw [List.length_erase_of_mem hj]
    have := hInv.act_run
    omega
  · show s.activeJobs - 1 ≤ (c.concurrency : Int)
    have := hInv.act_le
    omega
  · exact hInv.keysNodup
  · exact hInv.queuesKeyed
  · exact hInv.pkNodup
  · intro hord k0
    have h0 := hInv.oneInFlight hord k0
    simp only [inflightFor] at h0
    have hpj : ¬ (truthyKey j = some k0) := by rw [hk hord]; simp
    show ((s.running.erase j).filter (fun x => truthyKey x = some k0)).length =
      if k0 ∈ s.processingKeys then 1 else 0
    have hle := length_filter_erase (fun x => decide (truthyKey x = some k0)) hj
    rw [if_neg (by simpa using hpj)] at hle
    rw [← h0]
    omega
  · intro hord k0
    have hf := hInv.fifo hord k0
    rw [enqSeq_append, startSeq_append]
    have he1 : enqSeq k0 [Ev.done j] = [] := rfl
    have hs1 : startSeq k0 [Ev.done j] = [] := rfl
    rw [he1, hs1, List.append_nil, List.append_nil]
    exact hf

theorem completeState_inv_keyed {c : Cfg} {j : Job} {k : String} {s : WState}
    {tr : List Ev}
    (hInv : Inv c s tr) (hj : j ∈ s.running) (hord : c.ordered = true)
    (hkc : truthyKey j = some k) :
    Inv c { completeState j s with
            processingKeys := (completeState j s).processingKeys.erase k }
      (tr ++ [Ev.done j]) := by
  have hlen : 0 < s.running.length := List.length_pos_of_mem hj
  have hpknd := hInv.pkNodup hord
  constructor
  · show s.activeJobs - 1 = (((s.running.erase j).length : Nat) : Int)
    rw [List.length_erase_of_mem hj]
    have := hInv.act_run
    omega
  · show s.activeJobs - 1 ≤ (c.concurrency : Int)
    have := hInv.act_le
    omega
  · exact hInv.keysNodup
  · exact hInv.queuesKeyed
  · intro _
    exact hpknd.erase k
  · intro _ k0
    have h0 := hInv.oneInFlight hord k0
    simp only [inflightFor] at h0
    show ((s.running.erase j).filter (fun x => truthyKey x = some k0)).length =
      if k0 ∈ s.processingKeys.erase k then 1 else 0
    have hle := length_filter_erase (fun x => decide (truthyKey x = some k0)) hj
    by_cases hk0 : k0 = k
    · have hpj : truthyKey j = some k0 := by rw [hkc, hk0]
      rw [if_pos (by simpa using hpj)] at hle
      have hmemf : j ∈ s.running.filter (fun x => truthyKey x = some k0) :=
        List.mem_filter.mpr ⟨hj, by simpa using hpj⟩
      have hpos : 0 < (s.running.filter (fun x => truthyKey x = some k0)).length :=
        List.length_pos_of_mem hmemf
      have hmm : k0 ∉ s.processingKeys.erase k := by
        rw [hk0]
        intro hc
        exact ((hpknd.mem_erase_iff).mp hc).1 rfl
      rw [if_neg hmm]
      by_cases hin : k0 ∈ s.processingKeys
      · rw [if_pos hin] at h0
        omega
      · rw [if_neg hin] at h0
        omega
    · have hpj : ¬ (truthyKey j = some k0) := by
        rw [hkc]; exact fun hc => hk0 (Option.some.inj hc).symm
      rw [if_neg (by simpa using hpj)] at hle
      have hmm : (k0 ∈ s.processingKeys.erase k) ↔ k0 ∈ s.processingKeys :=
        List.mem_erase_of_ne hk0
      by_cases hin : k0 ∈ s.processingKeys
      · rw [if_pos (hmm.mpr hin)]
        rw [if_pos hin] at h0
        omega
      · rw [if_neg (fun hc => hin (hmm.mp hc))]
        rw [if_neg hin] at h0
        omega
  · intro _ k0
    have hf := hInv.fifo hord k0
    rw [enqSeq_append, startSeq_append]
    have he1 : enqSeq k0 [Ev.done j] = [] := rfl
    have hs1 : startSeq k0 [Ev.done j] = [] := rfl
    rw [he1, hs1, List.append_nil, List.append_nil]
    exact hf

theorem afterComplete_inv {c : Cfg} {j : Job} {s : WState} {tr : List Ev}
    (hInv : Inv c s tr) (hj : j ∈ s.running) :
    Inv c (afterComplete c j s).1 (tr ++ (Ev.done j :: (afterComplete c j s).2)) := by
  rw [afterComplete]
  by_cases hco : c.ordered = true
  · rw [if_pos hco]
    cases hkc : truthyKey j with
    | some k =>
        have h2 := completeState_inv_keyed hInv hj hco hkc
        have h3 := dispatchOrdered_inv h2
        rw [List.append_cons]
        exact h3
    | none =>
        have h2 := completeState_inv_unkeyed hInv hj (fun _ => hkc)
        have h3 := dispatchOrdered_inv h2
        rw [List.append_cons]
        exact h3
  · rw [if_neg hco]
    have h2 := completeState_inv_unkeyed hInv hj (fun hord => absurd hord hco)
    rw [List.append_cons]
    simpa using h2

theorem step_inv {c : Cfg} {s : WState} {tr evs : List Ev} {s2 : WState}
    (hInv : Inv c s tr) (hstep : Step c s evs s2) : Inv c s2 (tr ++ evs) := by
  cases hstep with
  | poll hs hp hc =>
      refine ⟨hInv.act_run, hInv.act_le, hInv.keysNodup, hInv.queuesKeyed,
        hInv.pkNodup, hInv.oneInFlight, ?_⟩
      intro hord k0
      have hf := hInv.fifo hord k0
      rw [enqSeq_append, startSeq_append]
      have he1 : enqSeq k0 [Ev.read] = [] := rfl
      have hs1 : startSeq k0 [Ev.read] = [] := rfl
      rw [he1, hs1, List.append_nil, List.append_nil]
      exact hf
  | pollRetStop hp hs =>
      rw [List.append_nil]
      exact ⟨hInv.act_run, hInv.act_le, hInv.keysNodup, hInv.queuesKeyed,
        hInv.pkNodup, hInv.oneInFlight, hInv.fifo⟩
  | pollRet batch hp hs hlen =>
      have hInv' : Inv c { s with pollInFlight := none } tr :=
        ⟨hInv.act_run, hInv.act_le, hInv.keysNodup, hInv.queuesKeyed,
          hInv.pkNodup, hInv.oneInFlight, hInv.fifo⟩
      exact processBatch_inv batch hInv'
  | complete j hj =>
      exact afterComplete_inv hInv hj
  | stop =>
      rw [List.append_nil]
      exact ⟨hInv.act_run, hInv.act_le, hInv.keysNodup, hInv.queuesKeyed,
        hInv.pkNodup, hInv.oneInFlight, hInv.fifo⟩

theorem reach_inv {c : Cfg} {s : WState} {tr : List Ev} (h : Reach c s tr) :
    Inv c s tr := by
  induction h with
  | init =>
      constructor
      · rfl
      · exact Int.natCast_nonneg c.concurrency
      · exact List.nodup_nil
      · intro k q hm
        simp [initState] at hm
      · intro _
        exact List.nodup_nil
      · intro _ k
        simp [inflightFor, initState]
      · intro _ k
        simp [enqSeq, startSeq, lookupQ, initState]
  | step _ hstep ih =>
      exact step_inv ih hstep

/-! ### Claim theorems about the worker -/

/-- C1: In ordered mode, for every ordering key `K` and any two messages
`m1`, `m2` carrying key `K` that arrive from the store with `m1` before `m2`
(their positions in the per-key arrival sequence `enqSeq`), the handler for
`m1` starts before the handler for `m2`: keyed messages are appended to the
key's FIFO in arrival order and dispatched only from its head. -/
theorem ordered_fifo_per_key (c : Cfg) (hc : c.ordered = true) {s : WState}
    {tr : List Ev} (h : Reach c s tr) (k : String) {m1 m2 : Nat}
    (h1 : m1 ∈ startSeq k tr) (h2 : m2 ∈ startSeq k tr)
    (harr : (enqSeq k tr).indexOf m1 < (enqSeq k tr).indexOf m2) :
    (startSeq k tr).indexOf m1 < (startSeq k tr).indexOf m2 := by
  have hf := (reach_inv h).fifo hc k
  have e1 : (enqSeq k tr).indexOf m1 = (startSeq k tr).indexOf m1 := by
    rw [hf]
    exact List.indexOf_append_of_mem h1
  have e2 : (enqSeq k tr).indexOf m2 = (startSeq k tr).indexOf m2 := by
    rw [hf]
    exact List.indexOf_append_of_mem h2
  rw [e1, e2] at harr
  exact harr

/-- C2: In ordered mode, at most one handler processing a message with key `k`
is in flight in any reachable state: a key is dispatched only when not busy,
is marked busy before the handler is spawned, and is released only on that
handler's completion. -/
theorem at_most_one_handler_per_key (c : Cfg) (hc : c.ordered = true)
    {s : WState} {tr : List Ev} (h : Reach c s tr) (k : String) :
    inflightFor k s ≤ 1 := by
  have h0 := (reach_inv h).oneInFlight hc k
  rw [h0]
  by_cases hin : k ∈ s.processingKeys <;> simp [hin]

/-- C3: In every reachable state of the poll/dispatch/completion step
relation, `0 ≤ activeJobs ≤ concurrency`: both dispatch paths increment
`activeJobs` only under the guard `activeJobs < concurrency` and every
completion decrements it. -/
theorem inflight_bounded (c : Cfg) {s : WState} {tr : List Ev}
    (h : Reach c s tr) :
    0 ≤ s.activeJobs ∧ s.activeJobs ≤ (c.concurrency : Int) := by
  have hInv := reach_inv h
  refine ⟨?_, hInv.act_le⟩
  rw [hInv.act_run]
  exact Int.natCast_nonneg _

theorem dispatchOrdered_of_stopping (c : Cfg) (s' : WState)
    (h : s'.isStopping = true) : dispatchOrdered c s' = (s', []) := by
  have hng : ¬ (c.ordered = true ∧ s'.isStopping = false) := by
    intro hcc
    rw [h] at hcc
    exact Bool.noConfusion hcc.2
  rw [dispatchOrdered, if_neg hng]

theorem afterComplete_stopping (c : Cfg) (j : Job) {s : WState}
    (hstop : s.isStopping = true) :
    (afterComplete c j s).2 = [] ∧ (afterComplete c j s).1.isStopping = true := by
  rw [afterComplete]
  by_cases hco : c.ordered = true
  · rw [if_pos hco]
    cases truthyKey j with
    | some k =>
        show (dispatchOrdered c
            { completeState j s with
              processingKeys := (completeState j s).processingKeys.erase k }).2 = [] ∧
          (dispatchOrdered c
            { completeState j s with
              processingKeys := (completeState j s).processingKeys.erase k }).1.isStopping
            = true
        rw [dispatchOrdered_of_stopping c
          { completeState j s with
            processingKeys := (completeState j s).processingKeys.erase k } hstop]
        exact ⟨rfl, hstop⟩
    | none =>
        show (dispatchOrdered c (completeState j s)).2 = [] ∧
          (dispatchOrdered c (completeState j s)).1.isStopping = true
        rw [dispatchOrdered_of_stopping c (completeState j s) hstop]
        exact ⟨rfl, hstop⟩
  · rw [if_neg hco]
    exact ⟨rfl, hstop⟩

/-- C5: once `stop()` has set `isStopping`, no step of the worker issues a new
`xreadgroup` call or spawns a new handler, the batch of a read that was in
flight is discarded, and the worker stays stopping. -/
theorem stop_quiesces (c : Cfg) {s : WState} {tr evs : List Ev} {s2 : WState}
    (_reach : Reach c s tr) (hstop : s.isStopping = true) (hstep : Step c s evs s2) :
    Ev.read ∉ evs ∧ (∀ j, Ev.start j ∉ evs) ∧ s2.isStopping = true := by
  cases hstep with
  | poll hs hp hc =>
      rw [hs] at hstop
      exact Bool.noConfusion hstop
  | pollRetStop hp hs =>
      exact ⟨by simp, fun j => by simp, hstop⟩
  | pollRet batch hp hs hlen =>
      rw [hs] at hstop
      exact Bool.noConfusion hstop
  | complete j hj =>
      obtain ⟨h2, h1⟩ := afterComplete_stopping c j hstop
      rw [h2]
      exact ⟨by simp, fun j' => by simp, h1⟩
  | stop =>
      exact ⟨by simp, fun j => by simp, rfl⟩

theorem demoReach : Reach cDemo demoEnd demoTrace := by
  have h0 : Reach cDemo initState [] := Reach.init
  have h1 := Reach.step h0 (Step.poll rfl rfl (fun hh => absurd hh (by decide)))
  have h2 := Reach.step h1 (Step.pollRet [jA1, jA2] rfl rfl (by decide))
  have h3 := Reach.step h2 (Step.complete jA1 (by decide))
  exact h3

theorem demoReachStop : Reach cDemo demoStopState [] :=
  Reach.step Reach.init Step.stop

theorem ordered_fifo_per_key_witness :
    (startSeq "A" demoTrace).indexOf 1 < (startSeq "A" demoTrace).indexOf 2 :=
  ordered_fifo_per_key cDemo rfl demoReach "A" (by decide) (by decide) (by decide)

theorem at_most_one_handler_per_key_witness : inflightFor "A" demoEnd ≤ 1 :=
  at_most_one_handler_per_key cDemo rfl demoReach "A"

theorem inflight_bounded_witness :
    0 ≤ demoEnd.activeJobs ∧ demoEnd.activeJobs ≤ (cDemo.concurrency : Int) :=
  inflight_bounded cDemo demoReach

theorem stop_quiesces_witness :
    Ev.read ∉ ([] : List Ev) ∧ (∀ j, Ev.start j ∉ ([] : List Ev)) ∧
      ({ demoStopState with isStopping := true } : WState).isStopping = true :=
  stop_quiesces cDemo demoReachStop rfl Step.stop

/-- C4 counterexample: the claim fails on the code at two concrete inputs.
A handler that RESOLVES SUCCESSFULLY with a non-serializable value gets no
ack at all — line 261's `JSON.stringify(result)` throws before the inner try
— so "exactly one xack is attempted" is false; and a handler that REJECTS
with `null` makes `_executeJob`'s own promise reject — line 272's
`error.message` throws a TypeError out of the catch — so "the error is not
propagated to the caller" is false. -/
theorem executeJob_ack_discipline_counterexample :
    ¬ ((executeJob (HandlerOutcome.fulfilled JsResult.nonSerializable)
        AckOutcome.fulfilled).1.count ExecCall.ackAttempt = 1) ∧
    ¬ ((executeJob (HandlerOutcome.rejected JsReason.nullish)
        AckOutcome.fulfilled).2 = ExecResult.resolved) := by
  decide

/-- C4 (amended): if the handler resolves and its result, when defined, is
JSON-serializable, exactly one xack is attempted, an ack failure is absorbed
(never retried, never propagated) and is logged as an ack error whenever its
rejection value admits property access.  If the handler resolves with a
non-serializable result, the success log of line 261 throws before the inner
try: no ack is attempted and the error is absorbed.  If the handler rejects,
the ack is never attempted, and the error is not propagated to the caller of
`_executeJob` unless the rejection reason is `null`/`undefined`, in which
case the catch block's own `error.message` TypeError rejects `_executeJob`'s
promise. -/
theorem executeJob_ack_discipline (handler : HandlerOutcome) (ack : AckOutcome) :
    ((∃ r, handler = HandlerOutcome.fulfilled r ∧ stringifyThrows r = false) →
      (executeJob handler ack).1.count ExecCall.ackAttempt = 1 ∧
      (executeJob handler ack).2 = ExecResult.resolved ∧
      (ack = AckOutcome.rejected JsReason.nonNullish →
        ExecCall.logAckError ∈ (executeJob handler ack).1)) ∧
    ((∃ r, handler = HandlerOutcome.fulfilled r ∧ stringifyThrows r = true) →
      ExecCall.ackAttempt ∉ (executeJob handler ack).1 ∧
      (executeJob handler ack).2 = ExecResult.resolved) ∧
    (∀ reason, handler = HandlerOutcome.rejected reason →
      ExecCall.ackAttempt ∉ (executeJob handler ack).1 ∧
      ((executeJob handler ack).2 = ExecResult.resolved ↔
        ¬ (reason = JsReason.nullish))) := by
  refine ⟨?_, ?_, ?_⟩
  · rintro ⟨r, rfl, hr⟩
    revert hr
    rcases ack with _ | areason
    · cases r <;> decide
    · cases areason <;> cases r <;> decide
  · rintro ⟨r, rfl, hr⟩
    revert hr
    rcases ack with _ | areason
    · cases r <;> decide
    · cases areason <;> cases r <;> decide
  · rintro reason rfl
    rcases ack with _ | areason
    · cases reason <;> decide
    · cases areason <;> cases reason <;> decide

theorem executeJob_ack_discipline_witness :
    (executeJob (HandlerOutcome.fulfilled JsResult.serializable)
        (AckOutcome.rejected JsReason.nonNullish)).1.count ExecCall.ackAttempt = 1 ∧
    (executeJob (HandlerOutcome.fulfilled JsResult.serializable)
        (AckOutcome.rejected JsReason.nonNullish)).2 = ExecResult.resolved ∧
    ExecCall.logAckError ∈ (executeJob (HandlerOutcome.fulfilled JsResult.serializable)
        (AckOutcome.rejected JsReason.nonNullish)).1 ∧
    ExecCall.ackAttempt ∉ (executeJob (HandlerOutcome.rejected JsReason.nonNullish)
        AckOutcome.fulfilled).1 :=
  ⟨((executeJob_ack_discipline (HandlerOutcome.fulfilled JsResult.serializable)
      (AckOutcome.rejected JsReason.nonNullish)).1
      ⟨JsResult.serializable, rfl, rfl⟩).1,
    ((executeJob_ack_discipline (HandlerOutcome.fulfilled JsResult.serializable)
      (AckOutcome.rejected JsReason.nonNullish)).1
      ⟨JsResult.serializable, rfl, rfl⟩).2.1,
    ((executeJob_ack_discipline (HandlerOutcome.fulfilled JsResult.serializable)
      (AckOutcome.rejected JsReason.nonNullish)).1
      ⟨JsResult.serializable, rfl, rfl⟩).2.2 rfl,
    ((executeJob_ack_discipline (HandlerOutcome.rejected JsReason.nonNullish)
      AckOutcome.fulfilled).2.2 JsReason.nonNullish rfl).1⟩

/-- C6 (code bug): with a valid client, stream and handler but an invalid
`options.concurrency`, construction does not succeed with a warning and
concurrency 1 — line 60 dereferences `this.logger` before line 65 assigns
it, so the constructor throws a TypeError. -/
theorem constructor_invalid_concurrency_throws (v : JSValue)
    (hv : concurrencyValid v = false) :
    construct ⟨true, "q", true, some v⟩ = CtorOutcome.typeErrorLoggerUndefined := by
  have hq : ¬ (jsTrim "q" = "") := by decide
  cases v with
  | num n =>
      simp only [concurrencyValid] at hv
      simp [construct, hq, hv]
  | nonNum =>
      simp [construct, hq]

theorem constructor_invalid_concurrency_throws_witness :
    construct ⟨true, "q", true, some (JSValue.num 0)⟩ =
      CtorOutcome.typeErrorLoggerUndefined :=
  constructor_invalid_concurrency_throws (JSValue.num 0) (by decide)

/-- C7 counterexample: with `connect` never called and no attempt in flight
(`isConnected = false`, `promiseInFlight = false`) and a connection attempt
that would succeed, the delegating operation does NOT fail NotConnected with
no connection initiated: it initiates a connect and forwards the operation. -/
theorem ensureReady_notConnected_counterexample :
    ¬ (opFailed (delegatedOp false false (Except.ok true)).2 = true ∧
        ConnEv.initiatedConnect ∉ (delegatedOp false false (Except.ok true)).1 ∧
        ConnEv.forwardedOp ∉ (delegatedOp false false (Except.ok true)).1) := by
  decide

/-- C7 (amended): when `connect` was never called and no attempt is in
flight, a delegating operation lazily initiates a connection attempt; it
succeeds and is forwarded exactly when the attempt leaves the client
connected, and otherwise fails with the attempt's error (or the
"could not be established" error), not with a NotConnected guard failure. -/
theorem ensureReady_lazy_connect (attempt : Except String Bool) :
    ConnEv.initiatedConnect ∈ (delegatedOp false false attempt).1 ∧
    ((delegatedOp false false attempt).2 = Except.ok () ↔
      attempt = Except.ok true) ∧
    (attempt = Except.ok true →
      ConnEv.forwardedOp ∈ (delegatedOp false false attempt).1) := by
  rcases attempt with e | b
  · simp [delegatedOp, ensureConnected]
  · cases b <;> simp [delegatedOp, ensureConnected]

theorem ensureReady_lazy_connect_witness :
    ConnEv.initiatedConnect ∈ (delegatedOp false false (Except.ok true)).1 ∧
    (delegatedOp false false (Except.ok true)).2 = Except.ok () ∧
    ConnEv.forwardedOp ∈ (delegatedOp false false (Except.ok true)).1 :=
  ⟨(ensureReady_lazy_connect (Except.ok true)).1,
    ((ensureReady_lazy_connect (Except.ok true)).2.1).mpr rfl,
    (ensureReady_lazy_connect (Except.ok true)).2.2 rfl⟩

/-- C8: if `xgroup CREATE` fails with a BUSYGROUP message, `start` treats it
as success and begins polling; if it fails with any other error (including a
message-less one), `start` rethrows it and never calls `_doPoll`; on success
it polls. -/
theorem start_group_create_policy (res : Except (Option String) Unit) :
    ((∃ m, res = Except.error m ∧ isBusyGroup m = true) →
      startFn false res =
        ([StartEv.createGroupCall, StartEv.doPollInvoked], Except.ok ())) ∧
    (∀ m, res = Except.error m → isBusyGroup m = false →
      startFn false res = ([StartEv.createGroupCall], Except.error m)) ∧
    (res = Except.ok () →
      startFn false res =
        ([StartEv.createGroupCall, StartEv.doPollInvoked], Except.ok ())) := by
  refine ⟨?_, ?_, ?_⟩
  · rintro ⟨m, rfl, hm⟩
    simp [startFn, hm]
  · rintro m rfl hm
    simp [startFn, hm]
  · rintro rfl
    simp [startFn]

theorem start_group_create_policy_witness :
    startFn false (Except.error (some "BUSYGROUP Consumer Group name already exists")) =
      ([StartEv.createGroupCall, StartEv.doPollInvoked], Except.ok ()) ∧
    startFn false (Except.error (some "connection refused")) =
      ([StartEv.createGroupCall], Except.error (some "connection refused")) ∧
    startFn false (Except.ok ()) =
      ([StartEv.createGroupCall, StartEv.doPollInvoked], Except.ok ()) :=
  ⟨(start_group_create_policy
      (Except.error (some "BUSYGROUP Consumer Group name already exists"))).1
      ⟨some "BUSYGROUP Consumer Group name already exists", rfl, by decide⟩,
    (start_group_create_policy (Except.error (some "connection refused"))).2.1
      (some "connection refused") rfl (by decide),
    (start_group_create_policy (Except.ok ())).2.2 rfl⟩

theorem le_foldr_max {n : Nat} {l : List Nat} (h : n ∈ l) :
    n ≤ l.foldr (fun a b => max a b) 0 := by
  induction l with
  | nil => cases h
  | cons a t ih =>
      rcases List.mem_cons.mp h with h | h
      · rw [List.foldr_cons, h]
        exact le_max_left a _
      · exact le_trans (ih h) (le_max_right _ _)

theorem hfind_cons (r : Nat) (e : Nat × JRecord) (l : List (Nat × JRecord)) :
    hfind r (e :: l) = if e.1 = r then some e.2 else hfind r l := by
  by_cases h : e.1 = r <;> simp [hfind, List.find?_cons, h]

theorem heap_get_eq_hfind (h : Heap) (r : Nat) : h.get r = hfind r h.objs := rfl

theorem hfind_append (r : Nat) (l1 l2 : List (Nat × JRecord)) :
    hfind r (l1 ++ l2) =
      match hfind r l1 with
      | some v => some v
      | none => hfind r l2 := by
  induction l1 with
  | nil => simp [hfind]
  | cons e rest ih =>
      rw [List.cons_append, hfind_cons, hfind_cons]
      by_cases he : e.1 = r <;> simp [he, ih]

theorem Heap.get_fresh (h : Heap) : h.get h.fresh = none := by
  rw [heap_get_eq_hfind]
  unfold hfind
  cases hf : h.objs.find? (fun e => e.1 = h.fresh) with
  | none => rfl
  | some e =>
      have hm := List.mem_of_find?_eq_some hf
      have hk := List.find?_some hf
      simp only [decide_eq_true_eq] at hk
      have hmem : e.1 ∈ h.objs.map Prod.fst := List.mem_map_of_mem Prod.fst hm
      have hle := le_foldr_max hmem
      rw [hk] at hle
      unfold Heap.fresh at hle
      omega

theorem hfind_map_put_self {r : Nat} {rec : JRecord} :
    ∀ {l : List (Nat × JRecord)} {q : JRecord}, hfind r l = some q →
      hfind r (l.map (fun e => if e.1 = r then (r, rec) else e)) = some rec := by
  intro l
  induction l with
  | nil =>
      intro q hq
      cases hq
  | cons e rest ih =>
      intro q hq
      rw [hfind_cons] at hq
      rw [List.map_cons]
      by_cases he : e.1 = r
      · rw [if_pos he, hfind_cons, if_pos rfl]
      · rw [if_neg he, hfind_cons, if_neg he]
        rw [if_neg he] at hq
        exact ih hq

theorem hfind_map_put_ne {r r' : Nat} (rec : JRecord) (hne : ¬ (r' = r)) :
    ∀ (l : List (Nat × JRecord)),
      hfind r' (l.map (fun e => if e.1 = r then (r, rec) else e)) =
        hfind r' l := by
  intro l
  induction l with
  | nil => rfl
  | cons e rest ih =>
      rw [List.map_cons, hfind_cons]
      by_cases he : e.1 = r
      · have hne2 : ¬ (r = r') := fun hc => hne hc.symm
        rw [if_pos he, hfind_cons]
        simp only [hne2, if_false]
        rw [if_neg (fun hc : e.1 = r' => hne (hc.symm.trans he))]
        exact ih
      · rw [if_neg he, hfind_cons]
        by_cases he' : e.1 = r' <;> simp [he', ih]

theorem Heap.get_alloc_old {h : Heap} {r : Nat} {rec : JRecord}
    (hne : ¬ (r = h.fresh)) : (h.alloc rec).1.get r = h.get r := by
  rw [heap_get_eq_hfind, heap_get_eq_hfind]
  show hfind r (h.objs ++ [(h.fresh, rec)]) = hfind r h.objs
  rw [hfind_append]
  cases hf : hfind r h.objs with
  | some v => rfl
  | none =>
      show hfind r [(h.fresh, rec)] = none
      rw [hfind_cons, if_neg (fun hc : h.fresh = r => hne hc.symm)]
      rfl

theorem Heap.get_alloc_new (h : Heap) (rec : JRecord) :
    (h.alloc rec).1.get h.fresh = some rec := by
  have hnone : hfind h.fresh h.objs = none := h.get_fresh
  rw [heap_get_eq_hfind]
  show hfind h.fresh (h.objs ++ [(h.fresh, rec)]) = some rec
  rw [hfind_append, hnone]
  show hfind h.fresh [(h.fresh, rec)] = some rec
  rw [hfind_cons, if_pos rfl]

theorem Heap.get_put_self {h : Heap} {r : Nat} {q : JRecord} (rec : JRecord)
    (hq : h.get r = some q) : (h.put r rec).get r = some rec := by
  rw [heap_get_eq_hfind] at hq
  rw [heap_get_eq_hfind]
  exact hfind_map_put_self hq

theorem Heap.get_put_ne {h : Heap} {r r' : Nat} (rec : JRecord)
    (hne : ¬ (r' = r)) : (h.put r rec).get r' = h.get r' := by
  rw [heap_get_eq_hfind, heap_get_eq_hfind]
  exact hfind_map_put_ne rec hne h.objs

/-- C9: `publish` with a valid stream name and an existing payload object
succeeds, hands the store a FRESH object (reference distinct from the
caller's), leaves the caller's object exactly as it was, and adds
`_orderingKey` only to the copy, only when the option is non-empty after
trimming. -/
theorem publish_no_mutation (h : Heap) (streamName : String) (pref : Nat)
    (okey : Option String) (rec : JRecord)
    (hs : ¬ (jsTrim streamName = "")) (hp : h.get pref = some rec) :
    ∃ h2 jref, publish h streamName pref okey = Except.ok (h2, jref) ∧
      h2.get pref = some rec ∧ ¬ (jref = pref) ∧
      h2.get jref = some (sentPayload rec okey) := by
  have hpf : ¬ (pref = h.fresh) := by
    intro hc
    rw [hc, Heap.get_fresh] at hp
    cases hp
  have hold : (h.alloc rec).1.get pref = some rec := by
    rw [Heap.get_alloc_old hpf]
    exact hp
  have hnew : (h.alloc rec).1.get h.fresh = some rec := Heap.get_alloc_new h rec
  cases okey with
  | none =>
      have heq : publish h streamName pref none =
          Except.ok ((h.alloc rec).1, (h.alloc rec).2) := by
        rw [publish, if_neg hs, hp]
      refine ⟨(h.alloc rec).1, h.fresh, heq, hold, fun hc => hpf hc.symm, ?_⟩
      rw [sentPayload]
      exact hnew
  | some kk =>
      by_cases hkk : ¬ (kk = "") ∧ ¬ (jsTrim kk = "")
      · have heq : publish h streamName pref (some kk) =
            Except.ok ((h.alloc rec).1.put (h.alloc rec).2
              (setField rec "_orderingKey" (jsTrim kk)), (h.alloc rec).2) := by
          rw [publish, if_neg hs, hp]
          show (if ¬ (kk = "") ∧ ¬ (jsTrim kk = "") then
              Except.ok ((h.alloc rec).1.put (h.alloc rec).2
                (setField rec "_orderingKey" (jsTrim kk)), (h.alloc rec).2)
            else Except.ok ((h.alloc rec).1, (h.alloc rec).2)) = _
          rw [if_pos hkk]
        have halloc2 : (h.alloc rec).2 = h.fresh := rfl
        refine ⟨_, h.fresh, heq, ?_, fun hc => hpf hc.symm, ?_⟩
        · rw [halloc2, Heap.get_put_ne _ hpf]
          exact hold
        · rw [halloc2, Heap.get_put_self _ hnew, sentPayload, if_pos hkk]
      · have heq : publish h streamName pref (some kk) =
            Except.ok ((h.alloc rec).1, (h.alloc rec).2) := by
          rw [publish, if_neg hs, hp]
          show (if ¬ (kk = "") ∧ ¬ (jsTrim kk = "") then
              Except.ok ((h.alloc rec).1.put (h.alloc rec).2
                (setField rec "_orderingKey" (jsTrim kk)), (h.alloc rec).2)
            else Except.ok ((h.alloc rec).1, (h.alloc rec).2)) = _
          rw [if_neg hkk]
        refine ⟨(h.alloc rec).1, h.fresh, heq, hold, fun hc => hpf hc.symm, ?_⟩
        rw [sentPayload, if_neg hkk]
        exact hnew

theorem publish_no_mutation_witness :
    ∃ h2 jref,
      publish ⟨[(0, [("email", "a@x")])]⟩ "Q1" 0 (some " k1 ") =
        Except.ok (h2, jref) ∧
      h2.get 0 = some [("email", "a@x")] ∧ ¬ (jref = 0) ∧
      h2.get jref = some (sentPayload [("email", "a@x")] (some " k1 ")) :=
  publish_no_mutation ⟨[(0, [("email", "a@x")])]⟩ "Q1" 0 (some " k1 ")
    [("email", "a@x")] (by decide) (by decide)

theorem setFieldO_append {acc : JRecordO} {k : String} (v : Option String)
    (h : acc.any (fun e => e.1 = k) = false) :
    setFieldO acc k v = acc ++ [(k, v)] := by
  rw [setFieldO, if_neg (by simp [h])]

theorem arrayToObjectLoop_flatten (p : List (String × String)) (acc : JRecordO)
    (hnd : (p.map Prod.fst).Nodup)
    (hdisj : ∀ k ∈ p.map Prod.fst, acc.any (fun e => e.1 = k) = false) :
    arrayToObjectLoop (flattenEntries p) acc =
      acc ++ p.map (fun e => (e.1, some e.2)) := by
  induction p generalizing acc with
  | nil => simp [flattenEntries, arrayToObjectLoop]
  | cons e rest ih =>
      obtain ⟨k, v⟩ := e
      rw [flattenEntries, arrayToObjectLoop]
      have hk : acc.any (fun e => e.1 = k) = false :=
        hdisj k (by simp)
      rw [setFieldO_append (some v) hk]
      have hnd' : (rest.map Prod.fst).Nodup :=
        (List.map_cons Prod.fst (k, v) rest ▸ hnd).of_cons
      have hknotin : k ∉ rest.map Prod.fst := by
        have := List.map_cons Prod.fst (k, v) rest ▸ hnd
        exact (List.nodup_cons.mp this).1
      have hdisj' : ∀ k' ∈ rest.map Prod.fst,
          (acc ++ [(k, some v)]).any (fun e => e.1 = k') = false := by
        intro k' hk'
        rw [List.any_append]
        have h1 : acc.any (fun e => e.1 = k') = false :=
          hdisj k' (by simp [hk'])
        have h2 : ([((k : String), some v)].any (fun e => e.1 = k')) = false := by
          simp only [List.any_cons, List.any_nil, Bool.or_false]
          have : ¬ (k = k') := fun hc => hknotin (hc ▸ hk')
          simpa using this
        rw [h1, h2]
        rfl
      rw [ih (acc ++ [(k, some v)]) hnd' hdisj']
      simp

/-- C10: decoding the insertion-order flattening produced for `xadd` with the
consumer's `arrayToObject` recovers the original payload, for every flat
record with pairwise-distinct field names and string values. -/
theorem wire_roundtrip (p : List (String × String))
    (hnd : (p.map Prod.fst).Nodup) :
    arrayToObject (flattenEntries p) = p.map (fun e => (e.1, some e.2)) := by
  rw [arrayToObject,
    arrayToObjectLoop_flatten p [] hnd (fun k _ => rfl)]
  simp

theorem wire_roundtrip_witness :
    arrayToObject (flattenEntries [("email", "a@x"), ("subject", "s")]) =
      [("email", some "a@x"), ("subject", some "s")] :=
  wire_roundtrip [("email", "a@x"), ("subject", "s")] (by decide)

end QBull
